import Mathlib

/-!
Verification of the overdue-order / contact-SLA pipeline of the OKK-Tropic
daily report (files `report_section_3.py` and `main.py`).

Modelling conventions of the shallow embedding:

* All instants are integers counting seconds of fixed-offset MSK local time
  (UTC+3, no daylight saving), so no timezone conversion ever appears —
  exactly as in the source, where every datetime carries the fixed `MSK_TZ`.
* A calendar date is the integer day index `d`; the day `d` spans the seconds
  `[86400*d, 86400*(d+1))`.  Day `0` is taken to be a Monday, so Python's
  `date.weekday()` (Monday = 0 … Sunday = 6) is `d % 7`.
* Python strings are modelled as `List Char`; `None` as `Option.none`;
  Python truthiness of a string is nonemptiness.
* `datetime.max.time()` is `23:59:59.999999`; every timestamp handled by the
  section is produced by `strptime(_, "%Y-%m-%d %H:%M:%S")` and is therefore a
  whole second, so the inclusive end-of-day bound is modelled as second
  `86400*d + 86399`.
* The result of `strptime` on a record's raw timestamp string is modelled as
  an `Option ℤ` (`none` = `ValueError`); a field that may be absent or empty
  (Python-falsy) adds an outer `Option`.
-/

/-- Start of the report day `d` (00:00:00 MSK), from `get_report_datetimes_msk`. -/
def start_report (d : ℤ) : ℤ := 86400 * d

/-- End of the report day `d` (23:59:59(.999999) MSK, second-truncated),
from `get_report_datetimes_msk`. -/
def end_report (d : ℤ) : ℤ := 86400 * d + 86399

/-- Start of the working day (09:00:00 MSK), from `get_working_datetimes_msk`. -/
def start_work_day (d : ℤ) : ℤ := 86400 * d + 32400

/-- End of the working day (20:59:59 MSK), from `get_working_datetimes_msk`. -/
def end_work_day (d : ℤ) : ℤ := 86400 * d + 75599

/-- 21:00:00 MSK of day `d`, the `non_work_time_start` local of
`get_section_3_report_data`. -/
def non_work_time_start (d : ℤ) : ℤ := 86400 * d + 75600

/-- 21:00:00 MSK of the day before `d`, the `previous_day_non_work_time`
local of `get_section_3_report_data`. -/
def previous_day_non_work_time (d : ℤ) : ℤ := 86400 * (d - 1) + 75600

/-- `datetime.date()`: the calendar day an instant falls on (Python floor
division; `Int` division by the positive constant 86400 is also floor). -/
def date_of (t : ℤ) : ℤ := t / 86400

/-- Python `date.weekday()`: Monday = 0 … Sunday = 6 under the day-0-is-Monday
convention. -/
def weekday (d : ℤ) : ℤ := d % 7

/-- `get_next_working_day_start_msk`: 09:00 MSK of the day after
`current_date`, pushed past a weekend (`weekday ≥ 5`) to the next Monday. -/
def get_next_working_day_start_msk (current_date : ℤ) : ℤ :=
  let next_day := current_date + 1
  let next_day := if 5 ≤ weekday next_day then next_day + (7 - weekday next_day) else next_day
  86400 * next_day + 32400

/-- `normalize_phone_number`: `None`/empty input gives `None`; otherwise keep
only digits; an 11-digit result starting with `'8'` has that digit replaced by
`'7'`; a 10-digit result starting with `'9'` is prefixed with `'7'`. -/
def normalize_phone_number (s : List Char) : Option (List Char) :=
  if s = [] then none
  else if (s.filter Char.isDigit).head? = some '8' ∧ (s.filter Char.isDigit).length = 11 then
    some ('7' :: (s.filter Char.isDigit).tail)
  else if (s.filter Char.isDigit).head? = some '9' ∧ (s.filter Char.isDigit).length = 10 then
    some ('7' :: s.filter Char.isDigit)
  else some (s.filter Char.isDigit)

/-- `normalize_phone_number` applied to a possibly-`None` raw phone (the
Python function accepts `None` and returns `None` for it). -/
def normalize_opt (p : Option (List Char)) : Option (List Char) :=
  match p with
  | none => none
  | some s => normalize_phone_number s

/-- An order as consumed by `get_section_3_report_data`: `id`, `number`
(empty list = absent/empty, Python-falsy), the `createdAt` field (outer
`none` = absent/empty string; inner `Option ℤ` = `strptime` outcome), the
top-level `phone` field (empty = absent), and the `customer.phones[].number`
entries. -/
structure Order where
  id : ℤ
  number : List Char
  createdAt : Option (Option ℤ)
  phone : List Char
  customerPhones : List (Option (List Char))
  deriving DecidableEq

/-- The customer-phone extraction of lines 301–306: prefer `order['phone']`,
else the first entry of `customer.phones` (whose `number` may itself be
absent). -/
def extract_phone (o : Order) : Option (List Char) :=
  match o.phone with
  | _ :: _ => some o.phone
  | [] =>
    match o.customerPhones with
    | [] => none
    | p :: _ => p

/-- A raw UIS call record as consumed by lines 267–284: `direction`,
`contact_phone_number` (`none` = absent/empty), and `start_time` (outer
`none` = absent/empty string, inner `Option ℤ` = `strptime` outcome). -/
structure UisCall where
  direction : List Char
  contact_phone_number : Option (List Char)
  start_time : Option (Option ℤ)
  deriving DecidableEq

/-- An entry of `outgoing_calls_details`: normalized phone plus parsed MSK
instant. -/
structure CallDetail where
  phone_number : List Char
  datetime_msk : ℤ
  deriving DecidableEq

/-- The body of the call-filtering loop (lines 268–284): keep an outbound
call when its phone and `start_time` are truthy, its normalized phone is
truthy, and its `start_time` parses; a call whose timestamp fails to parse
is dropped with a warning and the loop continues. -/
def outgoing_call_step (acc : List CallDetail) (call : UisCall) : List CallDetail :=
  if call.direction = "out".data then
    match call.contact_phone_number, call.start_time with
    | some (p :: ps), some start_parse =>
      match normalize_phone_number (p :: ps) with
      | some (q :: qs) =>
        match start_parse with
        | some t => acc ++ [⟨q :: qs, t⟩]
        | none => acc
      | _ => acc
    | _, _ => acc
  else acc

/-- Lines 267–284: the `outgoing_calls_details` list built by the loop. -/
def outgoing_calls_details (calls : List UisCall) : List CallDetail :=
  calls.foldl outgoing_call_step []

/-- The body of the first-contact scan (lines 356–360): take the call when
it matches the order's phone, is at or after order creation, and improves
the running minimum. -/
def first_contact_step (np : List Char) (t0 : ℤ) (first_contact_time : Option ℤ)
    (c : CallDetail) : Option ℤ :=
  if c.phone_number = np ∧ t0 ≤ c.datetime_msk then
    match first_contact_time with
    | none => some c.datetime_msk
    | some b => if c.datetime_msk < b then some c.datetime_msk else first_contact_time
  else first_contact_time

/-- Lines 355–360: the earliest outbound call to `np` at or after `t0`
(`first_contact_time`), found by a linear scan keeping the running minimum. -/
def first_contact (calls : List CallDetail) (np : List Char) (t0 : ℤ) : Option ℤ :=
  calls.foldl (first_contact_step np t0) none

/-- Line 362: `is_overdue = first_contact_time is None or
first_contact_time > contact_deadline_dt`. -/
def is_overdue (fc : Option ℤ) (contact_deadline : ℤ) : Bool :=
  match fc with
  | none => true
  | some t => decide (contact_deadline < t)

/-- Lines 336–350: the window classification and deadline.  `some (b, dl)`
means the order is classified (`b` = created in working hours) with contact
deadline `dl`; `none` is the defensive `else: continue` branch. -/
def classify_deadline (d t : ℤ) : Option (Bool × ℤ) :=
  if start_work_day d ≤ t ∧ t ≤ end_work_day d then
    some (true, t + 600)
  else if non_work_time_start d ≤ t then
    some (false, get_next_working_day_start_msk (date_of t) + 7200)
  else if previous_day_non_work_time d ≤ t ∧ t < start_work_day d then
    some (false, start_work_day d + 7200)
  else none

/-- Modelled from the spec's words for the classification claim: in-hours
creation gives `createdAt + 10 min`; creation at or after the business-hours
close on the report date gives the next-business-day 09:00 start plus 2
hours; creation between the previous day's close and the report day's open
gives the report-day 09:00 start plus 2 hours — evaluated in this priority
order. -/
def classify_deadline_spec (d t : ℤ) : Option (Bool × ℤ) :=
  if start_work_day d ≤ t ∧ t ≤ end_work_day d then
    some (true, t + 600)
  else if end_work_day d ≤ t ∧ t ≤ end_report d then
    some (false, get_next_working_day_start_msk d + 7200)
  else if previous_day_non_work_time d ≤ t ∧ t < start_work_day d then
    some (false, start_work_day d + 7200)
  else none

/-- One line of the rendered section-3 report (lines 224–225, 265,
386–396), abstracted from its f-string to its payload. -/
inductive ReportLine where
  | configError
  | uisError
  | summary (overdue total : ℕ)
  | outsideWorkCount (n : ℕ)
  | insideWorkCount (n : ℕ)
  | overdueDetail (id : ℤ) (number : List Char) (createdAt contact_deadline : ℤ)
      (firstContact : Option ℤ)
  deriving DecidableEq

/-- The mutable accumulators of the per-order loop (lines 288–294). -/
structure S3State where
  overdue_count : ℕ
  total_relevant_orders : ℕ
  orders_in_work_time_count : ℕ
  orders_outside_work_time_count : ℕ
  overdue_details : List ReportLine
  deriving DecidableEq

/-- The zero-initialised loop state. -/
def S3State.init : S3State := ⟨0, 0, 0, 0, []⟩

/-- One iteration of the per-order loop (lines 296–378): skip the order
unless number, `createdAt` and normalized phone are truthy and `createdAt`
parses; skip unless it falls in the report day or the previous-night
spillover; then count it relevant, classify it, find the first qualifying
contact, and record it when overdue. -/
def order_step (d : ℤ) (calls : List CallDetail) (st : S3State) (o : Order) : S3State :=
  match o.number, o.createdAt, normalize_opt (extract_phone o) with
  | _ :: _, some created_parse, some (p :: ps) =>
    (match created_parse with
     | none => st
     | some t =>
       if (start_report d ≤ t ∧ t ≤ end_report d) ∨
          (previous_day_non_work_time d ≤ t ∧ t < start_work_day d) then
         let st1 : S3State := { st with total_relevant_orders := st.total_relevant_orders + 1 }
         match classify_deadline d t with
         | none => st1
         | some (in_work, contact_deadline) =>
           let st2 : S3State :=
             if in_work then
               { st1 with orders_in_work_time_count := st1.orders_in_work_time_count + 1 }
             else
               { st1 with orders_outside_work_time_count := st1.orders_outside_work_time_count + 1 }
           let fc := first_contact calls (p :: ps) t
           if is_overdue fc contact_deadline then
             { st2 with
                 overdue_count := st2.overdue_count + 1,
                 overdue_details := st2.overdue_details ++
                   [ReportLine.overdueDetail o.id o.number t contact_deadline fc] }
           else st2
       else st)
  | _, _, _ => st

/-- Python `dict` assignment `m[k] = v`: replace the value of an existing
key in place, otherwise append the new binding. -/
def dictInsert : List (ℤ × Order) → ℤ → Order → List (ℤ × Order)
  | [], k, v => [(k, v)]
  | kv :: rest, k, v => if kv.1 = k then (k, v) :: rest else kv :: dictInsert rest k v

/-- Line 254: `orders_by_id = {order['id']: order for order in all_orders}`. -/
def orders_by_id (orders : List Order) : List (ℤ × Order) :=
  orders.foldl (fun m o => dictInsert m o.id o) []

/-- Lookup in the modelled dict. -/
def dict_find (m : List (ℤ × Order)) (k : ℤ) : Option Order :=
  (m.find? (fun kv => decide (kv.1 = k))).map (fun kv => kv.2)

/-- Line 255: `all_orders_unique = list(orders_by_id.values())`. -/
def all_orders_unique (orders : List Order) : List Order :=
  (orders_by_id orders).map (fun kv => kv.2)

/-- `ORDER_METHOD_MAPPINGS` (lines 27–33). -/
def ORDER_METHOD_MAPPINGS : List (List Char × List Char) :=
  [("в один клик".data, "one-click".data),
   ("задать вопрос".data, "zadat-vopros".data),
   ("заказать услугу".data, "zakazat-uslugu".data),
   ("через корзину".data, "shopping-cart".data),
   ("хотите увидеть фото".data, "khotite-uvidet-foto".data)]

/-- Lines 243–252: the body of the per-method fetch loop.  `fetch` models
`get_orders_list`, whose result is `none` on any fetch failure and the
accumulated order list on success; `if orders_for_method:` extends only on a
truthy (successful and nonempty) result. -/
def collect_step (fetch : List Char → Option (List Order)) (acc : List Order)
    (mm : List Char × List Char) : List Order :=
  match fetch mm.2 with
  | some (o :: os) => acc ++ (o :: os)
  | _ => acc

/-- Lines 238–252: one `get_orders_list` call per `ORDER_METHOD_MAPPINGS`
entry, results accumulated into `all_orders`. -/
def collect_orders (fetch : List Char → Option (List Order)) : List Order :=
  ORDER_METHOD_MAPPINGS.foldl (collect_step fetch) []

/-- `get_section_3_report_data`, with the two network adapters abstracted as
inputs: `fetch` models `get_orders_list` per order-method code (`none` = the
adapter's failure return), `uisResult` models `get_uis_call_history`
(`none` = its failure return), and `configOk` the environment-variable guard
of line 223. -/
def get_section_3_report_data (d : ℤ) (configOk : Bool)
    (fetch : List Char → Option (List Order))
    (uisResult : Option (List UisCall)) : List ReportLine :=
  if configOk = false then [ReportLine.configError]
  else
    let all_orders := collect_orders fetch
    let uniq := all_orders_unique all_orders
    match uisResult with
    | none => [ReportLine.uisError]
    | some all_uis_calls =>
      let det := outgoing_calls_details all_uis_calls
      let st := uniq.foldl (order_step d det) S3State.init
      [ReportLine.summary st.overdue_count st.total_relevant_orders,
       ReportLine.outsideWorkCount st.orders_outside_work_time_count,
       ReportLine.insideWorkCount st.orders_in_work_time_count] ++ st.overdue_details

/-- `text.rfind('\n', 0, limit)` of `split_message` (main.py line 130):
the greatest index `< limit` holding a newline, `none` when there is none
(Python's `-1`). -/
def rfind_nl (cs : List Char) (limit : ℕ) : Option ℕ :=
  ((List.range limit).filter (fun i => cs.getD i ' ' == '\n')).getLast?

/-- The `split_pos` computation of `split_message` (main.py lines 130–133)
at the default `limit = 4096`: fall back to a hard cut at the limit when no
newline was found or the found one sits before 90% of the limit
(`q < 4096 * 0.9 = 3686.4`, i.e. `q * 10 < 4096 * 9` for an integer `q`). -/
def split_pos (cs : List Char) : ℕ :=
  match rfind_nl cs 4096 with
  | none => 4096
  | some q => if q * 10 < 4096 * 9 then 4096 else q

/-- `split_message` (main.py lines 121–138) at the default `limit = 4096`:
a text within the limit is a single chunk; otherwise cut at `split_pos`,
strip leading newlines off the remainder, and recurse. -/
def split_message (cs : List Char) : List (List Char) :=
  if cs.length ≤ 4096 then [cs]
  else
    cs.take (split_pos cs) ::
      split_message ((cs.drop (split_pos cs)).dropWhile (fun c => c == '\n'))
termination_by cs.length
decreasing_by
  have h1 : 1 ≤ split_pos cs := by
    unfold split_pos
    cases rfind_nl cs 4096 with
    | none => simp
    | some q =>
      by_cases hq : q * 10 < 4096 * 9
      · simp [hq]
      · simp only [hq, if_false]
        omega
  have h2 : ((cs.drop (split_pos cs)).dropWhile (fun c => c == '\n')).length ≤
      (cs.drop (split_pos cs)).length :=
    (List.dropWhile_sublist _).length_le
  rw [List.length_drop] at h2
  omega

/-! ## Helper lemmas -/

theorem split_pos_pos (cs : List Char) : 1 ≤ split_pos cs := by
  unfold split_pos
  cases rfind_nl cs 4096 with
  | none => simp
  | some q =>
    by_cases hq : q * 10 < 4096 * 9
    · simp [hq]
    · simp only [hq, if_false]
      omega

theorem split_pos_le (cs : List Char) : split_pos cs ≤ 4096 := by
  unfold split_pos
  cases h : rfind_nl cs 4096 with
  | none => simp
  | some q =>
    have hq : q < 4096 := by
      unfold rfind_nl at h
      obtain ⟨ys, hys⟩ := List.getLast?_eq_some_iff.mp h
      have hmem : q ∈ (List.range 4096).filter (fun i => cs.getD i ' ' == '\n') := by
        rw [hys]
        exact List.mem_append_right _ (List.mem_singleton_self q)
      exact List.mem_range.mp (List.mem_filter.mp hmem).1
    by_cases h10 : q * 10 < 4096 * 9
    · simp [h10]
    · simp only [h10, if_false]
      omega

theorem normalize_phone_number_eq_self (r : List Char) (hne : r ≠ [])
    (hall : ∀ x ∈ r, x.isDigit)
    (h8 : ¬ (r.head? = some '8' ∧ r.length = 11))
    (h9 : ¬ (r.head? = some '9' ∧ r.length = 10)) :
    normalize_phone_number r = some r := by
  have hfil : r.filter Char.isDigit = r := List.filter_eq_self.mpr hall
  unfold normalize_phone_number
  rw [if_neg hne, hfil, if_neg h8, if_neg h9]

theorem classify_deadline_ne_none (d t : ℤ)
    (h : (start_report d ≤ t ∧ t ≤ end_report d) ∨
         (previous_day_non_work_time d ≤ t ∧ t < start_work_day d)) :
    classify_deadline d t ≠ none := by
  unfold classify_deadline
  split
  · simp
  split
  · simp
  split
  · simp
  unfold start_report end_report start_work_day end_work_day non_work_time_start
    previous_day_non_work_time at *
  omega

/-! ## Claim theorems -/

/-- C6: for every calendar date, `get_next_working_day_start_msk` returns an
instant of the form 09:00 local on some strictly later day whose weekday is a
weekday (Monday–Friday), and every day strictly between the input date and
the returned day is a Saturday or Sunday (the advance skips whole weekend
days only). -/
theorem spec_c6 (d : ℤ) : ∃ n : ℤ,
    get_next_working_day_start_msk d = 86400 * n + 32400 ∧
    weekday n < 5 ∧ d < n ∧ ∀ m : ℤ, d < m → m < n → 5 ≤ weekday m := by
  by_cases h : 5 ≤ (d + 1) % 7
  · refine ⟨d + 1 + (7 - (d + 1) % 7), ?_, ?_, ?_, ?_⟩
    · simp only [get_next_working_day_start_msk, weekday]
      rw [if_pos h]
    · unfold weekday
      omega
    · omega
    · intro m h1 h2
      unfold weekday
      omega
  · refine ⟨d + 1, ?_, ?_, ?_, ?_⟩
    · simp only [get_next_working_day_start_msk, weekday]
      rw [if_neg h]
    · unfold weekday
      omega
    · omega
    · intro m h1 h2
      unfold weekday
      omega

/-- C2: for every relevant order instant, the code's window classification
(lines 336–350) agrees with the spec's mutually exclusive priority-ordered
classification: in-hours gives `createdAt + 10 min`, at-or-after-close on
the report date gives next-business-day 09:00 + 2 h, overnight spillover
gives report-day 09:00 + 2 h. -/
theorem spec_c2 (d t : ℤ)
    (hrel : (start_report d ≤ t ∧ t ≤ end_report d) ∨
            (previous_day_non_work_time d ≤ t ∧ t < start_work_day d)) :
    classify_deadline d t = classify_deadline_spec d t := by
  unfold classify_deadline classify_deadline_spec
  by_cases h1 : start_work_day d ≤ t ∧ t ≤ end_work_day d
  · rw [if_pos h1, if_pos h1]
  · rw [if_neg h1, if_neg h1]
    by_cases h2 : non_work_time_start d ≤ t
    · have h2s : end_work_day d ≤ t ∧ t ≤ end_report d := by
        unfold start_report end_report start_work_day end_work_day non_work_time_start
          previous_day_non_work_time at *
        omega
      rw [if_pos h2, if_pos h2s]
      have hdate : date_of t = d := by
        unfold date_of
        unfold start_report end_report start_work_day non_work_time_start
          previous_day_non_work_time at *
        omega
      rw [hdate]
    · have h2s : ¬ (end_work_day d ≤ t ∧ t ≤ end_report d) := by
        unfold start_report end_report start_work_day end_work_day non_work_time_start at *
        omega
      rw [if_neg h2, if_neg h2s]

/-- Witness for C2 at a concrete in-hours instant (day 0, 10:00:00). -/
theorem spec_c2_witness :
    ((start_report 0 ≤ (36000 : ℤ) ∧ (36000 : ℤ) ≤ end_report 0) ∨
      (previous_day_non_work_time 0 ≤ (36000 : ℤ) ∧ (36000 : ℤ) < start_work_day 0)) ∧
    classify_deadline 0 36000 = classify_deadline_spec 0 36000 :=
  ⟨by decide, spec_c2 0 36000 (by decide)⟩

/-- C7: phone normalization is idempotent on any digit-bearing input:
normalizing the normalized result changes nothing. -/
theorem spec_c7 (s : List Char) (hdig : ∃ c ∈ s, c.isDigit) :
    (normalize_phone_number s).bind normalize_phone_number = normalize_phone_number s := by
  obtain ⟨c, hc, hcd⟩ := hdig
  have hs : s ≠ [] := by
    rintro rfl
    simp at hc
  have hnmem : c ∈ s.filter Char.isDigit := List.mem_filter.mpr ⟨hc, hcd⟩
  have hall : ∀ x ∈ s.filter Char.isDigit, x.isDigit :=
    fun x hx => (List.mem_filter.mp hx).2
  have hnne : s.filter Char.isDigit ≠ [] := List.ne_nil_of_mem hnmem
  by_cases h8 : (s.filter Char.isDigit).head? = some '8' ∧ (s.filter Char.isDigit).length = 11
  · have hns : normalize_phone_number s = some ('7' :: (s.filter Char.isDigit).tail) := by
      unfold normalize_phone_number
      rw [if_neg hs, if_pos h8]
    rw [hns]
    show normalize_phone_number ('7' :: (s.filter Char.isDigit).tail) =
      some ('7' :: (s.filter Char.isDigit).tail)
    exact normalize_phone_number_eq_self _ (by simp)
      (fun x hx => by
        rcases List.mem_cons.mp hx with rfl | hx
        · decide
        · exact hall x (List.mem_of_mem_tail hx))
      (fun h => by
        have h1 := h.1
        rw [List.head?_cons] at h1
        exact absurd h1 (by decide))
      (fun h => by
        have h1 := h.1
        rw [List.head?_cons] at h1
        exact absurd h1 (by decide))
  · by_cases h9 : (s.filter Char.isDigit).head? = some '9' ∧ (s.filter Char.isDigit).length = 10
    · have hns : normalize_phone_number s = some ('7' :: s.filter Char.isDigit) := by
        unfold normalize_phone_number
        rw [if_neg hs, if_neg h8, if_pos h9]
      rw [hns]
      show normalize_phone_number ('7' :: s.filter Char.isDigit) =
        some ('7' :: s.filter Char.isDigit)
      exact normalize_phone_number_eq_self _ (by simp)
        (fun x hx => by
          rcases List.mem_cons.mp hx with rfl | hx
          · decide
          · exact hall x hx)
        (fun h => by
          have h1 := h.1
          rw [List.head?_cons] at h1
          exact absurd h1 (by decide))
        (fun h => by
          have h1 := h.1
          rw [List.head?_cons] at h1
          exact absurd h1 (by decide))
    · have hns : normalize_phone_number s = some (s.filter Char.isDigit) := by
        unfold normalize_phone_number
        rw [if_neg hs, if_neg h8, if_neg h9]
      rw [hns]
      show normalize_phone_number (s.filter Char.isDigit) = some (s.filter Char.isDigit)
      exact normalize_phone_number_eq_self _ hnne hall h8 h9

/-- Witness for C7 at the raw phone "89991234567". -/
theorem spec_c7_witness :
    (∃ c ∈ "89991234567".data, c.isDigit) ∧
    (normalize_phone_number "89991234567".data).bind normalize_phone_number =
      normalize_phone_number "89991234567".data :=
  ⟨⟨'8', by decide, by decide⟩, spec_c7 _ ⟨'8', by decide, by decide⟩⟩

theorem dict_find_insert (m : List (ℤ × Order)) (k' : ℤ) (v : Order) (k : ℤ) :
    dict_find (dictInsert m k' v) k = if k' = k then some v else dict_find m k := by
  induction m with
  | nil =>
    by_cases h : k' = k
    · simp [dictInsert, dict_find, List.find?, h]
    · simp [dictInsert, dict_find, List.find?, h]
  | cons kv rest ih =>
    by_cases h1 : kv.1 = k'
    · rw [dictInsert, if_pos h1]
      by_cases h : k' = k
      · simp [dict_find, List.find?, h]
      · have hkv : ¬ kv.1 = k := by rw [h1]; exact h
        simp [dict_find, List.find?, h, hkv]
    · rw [dictInsert, if_neg h1]
      by_cases hk : kv.1 = k
      · have h : ¬ k' = k := by
          intro he
          exact h1 (by rw [hk, he])
        simp [dict_find, List.find?, hk, h]
      · unfold dict_find at *
        rw [List.find?_cons_of_neg _ (by simpa using hk),
          List.find?_cons_of_neg _ (by simpa using hk)]
        exact ih

theorem orders_by_id_find (k : ℤ) :
    ∀ (orders : List Order) (m : List (ℤ × Order)),
      dict_find (orders.foldl (fun m o => dictInsert m o.id o) m) k =
        match (orders.filter (fun o => decide (o.id = k))).getLast? with
        | some o => some o
        | none => dict_find m k := by
  intro orders
  induction orders with
  | nil =>
    intro m
    simp
  | cons o os ih =>
    intro m
    rw [List.foldl_cons, ih]
    by_cases h : o.id = k
    · rw [List.filter_cons_of_pos (by simpa using h)]
      cases hl : (os.filter (fun o => decide (o.id = k))).getLast? with
      | some o2 =>
        have : (o :: os.filter (fun o => decide (o.id = k))).getLast? = some o2 := by
          obtain ⟨ys, hys⟩ := List.getLast?_eq_some_iff.mp hl
          rw [hys, ← List.cons_append, List.getLast?_concat]
        rw [this]
      | none =>
        rw [List.getLast?_eq_none_iff.mp hl, List.getLast?_singleton]
        rw [dict_find_insert, if_pos h]
    · rw [List.filter_cons_of_neg (by simpa using h)]
      cases hl : (os.filter (fun o => decide (o.id = k))).getLast? with
      | some o2 => rfl
      | none =>
        rw [dict_find_insert, if_neg h]

/-- C4 counterexample: two fetched records share id 1; the claim predicts the
first record "A" is retained, but the dict comprehension keeps the last
record "B". -/
theorem spec_c4_counterexample :
    all_orders_unique
        [⟨1, "A".data, some (some 0), "7".data, []⟩,
         ⟨1, "B".data, some (some 0), "7".data, []⟩] =
      [⟨1, "B".data, some (some 0), "7".data, []⟩] ∧
    all_orders_unique
        [⟨1, "A".data, some (some 0), "7".data, []⟩,
         ⟨1, "B".data, some (some 0), "7".data, []⟩] ≠
      [⟨1, "A".data, some (some 0), "7".data, []⟩] := by
  constructor
  · rfl
  · decide

/-- C4 amended: de-duplication by order id keeps the LAST occurrence of each
identifier in fetch order (Python dict comprehension semantics: the stored
value for a repeated key is overwritten by later occurrences), not the first. -/
theorem spec_c4_amended (orders : List Order) (k : ℤ) :
    dict_find (orders_by_id orders) k =
      (orders.filter (fun o => decide (o.id = k))).getLast? := by
  unfold orders_by_id
  rw [orders_by_id_find k orders []]
  cases hl : (orders.filter (fun o => decide (o.id = k))).getLast? with
  | some o => rfl
  | none => rfl

theorem collect_fold_eq (fetch : List Char → Option (List Order)) :
    ∀ (mms : List (List Char × List Char)) (acc : List Order),
      mms.foldl
          (collect_step (fun code =>
            match fetch code with
            | none => some []
            | some os => some os)) acc =
        mms.foldl (collect_step fetch) acc := by
  intro mms
  induction mms with
  | nil =>
    intro acc
    rfl
  | cons mm rest ih =>
    intro acc
    rw [List.foldl_cons, List.foldl_cons, ih]
    congr 1
    unfold collect_step
    cases h : fetch mm.2 with
    | none => simp [h]
    | some os =>
      cases os with
      | nil => simp [h]
      | cons o os2 => simp [h]

/-- C5 counterexample: a run whose five per-origin order fetches all FAIL
(`get_orders_list` returns its failure value) still renders the normal
counter lines — identical to a run where every fetch succeeded with zero
orders — instead of an explicit error line, because line 251's
`if orders_for_method:` conflates the failure value with an empty list. -/
theorem spec_c5_counterexample :
    get_section_3_report_data 0 true (fun _ => none) (some []) =
      [ReportLine.summary 0 0, ReportLine.outsideWorkCount 0,
       ReportLine.insideWorkCount 0] ∧
    get_section_3_report_data 0 true (fun _ => none) (some []) =
      get_section_3_report_data 0 true (fun _ => some []) (some []) := by
  constructor
  · rfl
  · rfl

/-- C5 amended: the adapters do return a failure value (`None`)
distinguishable from an empty list, and a failed UIS call fetch makes the
section render an explicit error line; but a failed per-origin ORDER fetch
is silently treated exactly like a fetch that returned zero orders, and the
section continues with its normal counters. -/
theorem spec_c5_amended :
    ((none : Option (List Order)) ≠ some []) ∧
    (∀ (d : ℤ) (fetch : List Char → Option (List Order)),
       get_section_3_report_data d true fetch none = [ReportLine.uisError]) ∧
    (∀ fetch : List Char → Option (List Order),
       collect_orders (fun code =>
         match fetch code with
         | none => some []
         | some os => some os) = collect_orders fetch) := by
  refine ⟨by simp, fun d fetch => rfl, fun fetch => ?_⟩
  unfold collect_orders
  exact collect_fold_eq fetch ORDER_METHOD_MAPPINGS []

theorem first_contact_fold (np : List Char) (t0 : ℤ) :
    ∀ (calls : List CallDetail) (acc : Option ℤ),
      (calls.foldl (first_contact_step np t0) acc = none ↔
        acc = none ∧
          calls.filter (fun c => decide (c.phone_number = np ∧ t0 ≤ c.datetime_msk)) = []) ∧
      (∀ m : ℤ, calls.foldl (first_contact_step np t0) acc = some m →
        (m ∈ (calls.filter
              (fun c => decide (c.phone_number = np ∧ t0 ≤ c.datetime_msk))).map
            CallDetail.datetime_msk ∨ acc = some m) ∧
        (∀ c ∈ calls.filter (fun c => decide (c.phone_number = np ∧ t0 ≤ c.datetime_msk)),
          m ≤ c.datetime_msk) ∧
        (∀ a : ℤ, acc = some a → m ≤ a)) := by
  intro calls
  induction calls with
  | nil =>
    intro acc
    constructor
    · simp
    · intro m hm
      simp only [List.foldl_nil] at hm
      refine ⟨Or.inr hm, by simp, ?_⟩
      intro a ha
      rw [hm] at ha
      exact le_of_eq (Option.some.inj ha)
  | cons c0 cs ih =>
    intro acc
    by_cases hq : c0.phone_number = np ∧ t0 ≤ c0.datetime_msk
    · rw [List.filter_cons_of_pos (by simpa using hq)]
      rw [List.foldl_cons]
      cases acc with
      | none =>
        have hstep : first_contact_step np t0 none c0 = some c0.datetime_msk := by
          unfold first_contact_step
          rw [if_pos hq]
        rw [hstep]
        have key := ih (some c0.datetime_msk)
        constructor
        · constructor
          · intro h
            exact absurd (key.1.mp h).1 (by simp)
          · intro h
            exact absurd h.2 (by simp)
        · intro m hm
          obtain ⟨hmem, hbound, hacc⟩ := key.2 m hm
          refine ⟨?_, ?_, ?_⟩
          · left
            rw [List.map_cons]
            rcases hmem with h | h
            · exact List.mem_cons_of_mem _ h
            · rw [← Option.some.inj h]
              exact List.mem_cons_self _ _
          · intro c hc
            rcases List.mem_cons.mp hc with rfl | hc
            · exact hacc _ rfl
            · exact hbound c hc
          · intro a ha
            exact absurd ha (by simp)
      | some b =>
        have hstep : first_contact_step np t0 (some b) c0 =
            if c0.datetime_msk < b then some c0.datetime_msk else some b := by
          unfold first_contact_step
          rw [if_pos hq]
        rw [hstep]
        by_cases hlt : c0.datetime_msk < b
        · rw [if_pos hlt]
          have key := ih (some c0.datetime_msk)
          constructor
          · constructor
            · intro h
              exact absurd (key.1.mp h).1 (by simp)
            · intro h
              exact absurd h.2 (by simp)
          · intro m hm
            obtain ⟨hmem, hbound, hacc⟩ := key.2 m hm
            have hmc : m ≤ c0.datetime_msk := hacc _ rfl
            refine ⟨?_, ?_, ?_⟩
            · left
              rw [List.map_cons]
              rcases hmem with h | h
              · exact List.mem_cons_of_mem _ h
              · rw [← Option.some.inj h]
                exact List.mem_cons_self _ _
            · intro c hc
              rcases List.mem_cons.mp hc with rfl | hc
              · exact hmc
              · exact hbound c hc
            · intro a ha
              have hab : a = b := Option.some.inj ha.symm
              omega
        · rw [if_neg hlt]
          have key := ih (some b)
          constructor
          · constructor
            · intro h
              exact absurd (key.1.mp h).1 (by simp)
            · intro h
              exact absurd h.2 (by simp)
          · intro m hm
            obtain ⟨hmem, hbound, hacc⟩ := key.2 m hm
            have hmb : m ≤ b := hacc _ rfl
            refine ⟨?_, ?_, ?_⟩
            · rw [List.map_cons]
              rcases hmem with h | h
              · exact Or.inl (List.mem_cons_of_mem _ h)
              · exact Or.inr h
            · intro c hc
              rcases List.mem_cons.mp hc with rfl | hc
              · omega
              · exact hbound c hc
            · exact hacc
    · rw [List.filter_cons_of_neg (by simpa using hq)]
      rw [List.foldl_cons]
      have hstep : first_contact_step np t0 acc c0 = acc := by
        unfold first_contact_step
        rw [if_neg hq]
      rw [hstep]
      exact ih acc

theorem first_contact_none_iff (calls : List CallDetail) (np : List Char) (t0 : ℤ) :
    first_contact calls np t0 = none ↔
      calls.filter (fun c => decide (c.phone_number = np ∧ t0 ≤ c.datetime_msk)) = [] := by
  have key := (first_contact_fold np t0 calls none).1
  unfold first_contact
  constructor
  · intro h
    exact (key.mp h).2
  · intro h
    exact key.mpr ⟨rfl, h⟩

/-- C1: `first_contact` returns `none` exactly when no outbound call matches
the order's normalized phone at or after creation; otherwise it returns the
minimum qualifying timestamp; the overdue flag is true exactly when there is
no qualifying call or the earliest one is strictly past the deadline; and in
particular an order with no matching call is always overdue. -/
theorem spec_c1 (calls : List CallDetail) (np : List Char) (t0 contact_deadline : ℤ) :
    (first_contact calls np t0 = none ↔
      calls.filter (fun c => decide (c.phone_number = np ∧ t0 ≤ c.datetime_msk)) = []) ∧
    (∀ m : ℤ, first_contact calls np t0 = some m →
      m ∈ (calls.filter
            (fun c => decide (c.phone_number = np ∧ t0 ≤ c.datetime_msk))).map
          CallDetail.datetime_msk ∧
      ∀ c ∈ calls.filter (fun c => decide (c.phone_number = np ∧ t0 ≤ c.datetime_msk)),
        m ≤ c.datetime_msk) ∧
    (is_overdue (first_contact calls np t0) contact_deadline = true ↔
      first_contact calls np t0 = none ∨
        ∃ m : ℤ, first_contact calls np t0 = some m ∧ contact_deadline < m) ∧
    (calls.filter (fun c => decide (c.phone_number = np ∧ t0 ≤ c.datetime_msk)) = [] →
      is_overdue (first_contact calls np t0) contact_deadline = true) := by
  refine ⟨first_contact_none_iff calls np t0, ?_, ?_, ?_⟩
  · intro m hm
    have key := (first_contact_fold np t0 calls none).2 m hm
    obtain ⟨hmem, hbound, -⟩ := key
    rcases hmem with h | h
    · exact ⟨h, hbound⟩
    · exact absurd h (by simp)
  · cases hv : first_contact calls np t0 with
    | none => simp [is_overdue]
    | some v => simp [is_overdue]
  · intro h
    rw [(first_contact_none_iff calls np t0).mpr h]
    rfl

theorem order_step_skip_unparsed (d : ℤ) (calls : List CallDetail) (st : S3State)
    (o : Order) (h : o.createdAt = some none) : order_step d calls st o = st := by
  obtain ⟨oid, onum, oca, oph, ocp⟩ := o
  simp only at h
  subst h
  unfold order_step
  cases onum with
  | nil => rfl
  | cons a as =>
    cases hn : normalize_opt (extract_phone ⟨oid, a :: as, some none, oph, ocp⟩) with
    | none => rfl
    | some l =>
      cases l with
      | nil => rfl
      | cons p ps => rfl

theorem outgoing_call_step_unparsed (acc : List CallDetail) (c : UisCall)
    (h : c.start_time = some none) : outgoing_call_step acc c = acc := by
  obtain ⟨dir, cpn, stt⟩ := c
  simp only at h
  subst h
  unfold outgoing_call_step
  by_cases hd : dir = "out".data
  · rw [if_pos hd]
    cases cpn with
    | none => rfl
    | some l =>
      cases l with
      | nil => rfl
      | cons p ps =>
        dsimp only
        cases hn : normalize_phone_number (p :: ps) with
        | none => rfl
        | some l2 =>
          cases l2 with
          | nil => rfl
          | cons q qs => rfl
  · rw [if_neg hd]

/-- C8: a parse failure on an individual record never aborts the batch: an
outbound call whose `start_time` fails to parse is dropped while the rest of
the calls are processed, and an order whose `createdAt` fails to parse
leaves the loop state — all four counters and the detail list — unchanged,
so it is counted neither as relevant, overdue nor on-time. -/
theorem spec_c8 :
    (∀ (d : ℤ) (calls : List CallDetail) (st : S3State) (o : Order),
       o.createdAt = some none → order_step d calls st o = st) ∧
    (∀ (c : UisCall) (cs : List UisCall), c.start_time = some none →
       outgoing_calls_details (c :: cs) = outgoing_calls_details cs) := by
  refine ⟨order_step_skip_unparsed, ?_⟩
  intro c cs h
  unfold outgoing_calls_details
  rw [List.foldl_cons, outgoing_call_step_unparsed [] c h]

/-- Witness for C8: a concrete order and call with unparseable timestamps. -/
theorem spec_c8_witness :
    order_step 0 [] S3State.init ⟨1, "A".data, some none, "7".data, []⟩ = S3State.init ∧
    outgoing_calls_details [⟨"out".data, some "79991234567".data, some none⟩] =
      outgoing_calls_details [] :=
  ⟨spec_c8.1 0 [] S3State.init ⟨1, "A".data, some none, "7".data, []⟩ rfl,
   spec_c8.2 ⟨"out".data, some "79991234567".data, some none⟩ [] rfl⟩

theorem order_step_skip_empty_phone (d : ℤ) (calls : List CallDetail) (st : S3State)
    (o : Order) (h : normalize_opt (extract_phone o) = some []) :
    order_step d calls st o = st := by
  obtain ⟨oid, onum, oca, oph, ocp⟩ := o
  unfold order_step
  rw [h]
  cases onum with
  | nil => rfl
  | cons a as =>
    cases oca with
    | none => rfl
    | some cp => rfl

theorem outgoing_call_step_empty_phone (acc : List CallDetail) (c : UisCall)
    (h : normalize_opt c.contact_phone_number = some []) :
    outgoing_call_step acc c = acc := by
  obtain ⟨dir, cpn, stt⟩ := c
  simp only at h
  unfold outgoing_call_step
  by_cases hd : dir = "out".data
  · rw [if_pos hd]
    cases cpn with
    | none => simp [normalize_opt] at h
    | some l =>
      cases l with
      | nil => cases stt <;> rfl
      | cons p ps =>
        have hn : normalize_phone_number (p :: ps) = some [] := h
        cases stt with
        | none => rfl
        | some sp =>
          dsimp only
          rw [hn]
  · rw [if_neg hd]

theorem mem_outgoing_call_step (acc : List CallDetail) (c : UisCall) (x : CallDetail)
    (hx : x ∈ outgoing_call_step acc c) : x ∈ acc ∨ x.phone_number ≠ [] := by
  unfold outgoing_call_step at hx
  repeat' split at hx
  all_goals try exact Or.inl hx
  rcases List.mem_append.mp hx with h | h
  · exact Or.inl h
  · right
    rw [List.mem_singleton] at h
    subst h
    simp

theorem outgoing_calls_details_phone_invariant :
    ∀ (calls : List UisCall) (acc : List CallDetail),
      (∀ x ∈ acc, x.phone_number ≠ []) →
      ∀ cd ∈ calls.foldl outgoing_call_step acc, cd.phone_number ≠ [] := by
  intro calls
  induction calls with
  | nil => exact fun acc hacc cd hcd => hacc cd hcd
  | cons c cs ih =>
    intro acc hacc cd hcd
    rw [List.foldl_cons] at hcd
    refine ih _ ?_ cd hcd
    intro x hx
    rcases mem_outgoing_call_step acc c x hx with h | h
    · exact hacc x h
    · exact h

/-- C10: a non-empty raw phone with no digit characters normalizes to the
empty string (not `None`); an order whose extracted phone normalizes to the
empty string leaves the loop state unchanged (excluded from all counts); a
call whose phone normalizes to the empty string is excluded from the
outbound-call details; and every entry of the details list has a non-empty
normalized phone, so an empty normalized phone never participates in the
join. -/
theorem spec_c10 :
    (∀ s : List Char, s ≠ [] → (∀ c ∈ s, ¬ c.isDigit) →
       normalize_phone_number s = some []) ∧
    (∀ (d : ℤ) (calls : List CallDetail) (st : S3State) (o : Order),
       normalize_opt (extract_phone o) = some [] → order_step d calls st o = st) ∧
    (∀ (c : UisCall) (cs : List UisCall),
       normalize_opt c.contact_phone_number = some [] →
         outgoing_calls_details (c :: cs) = outgoing_calls_details cs) ∧
    (∀ (calls : List UisCall) (cd : CallDetail),
       cd ∈ outgoing_calls_details calls → cd.phone_number ≠ []) := by
  refine ⟨?_, order_step_skip_empty_phone, ?_, ?_⟩
  · intro s hne hnd
    have hfil : s.filter Char.isDigit = [] := List.filter_eq_nil_iff.mpr
      (fun a ha => by simpa using hnd a ha)
    unfold normalize_phone_number
    rw [if_neg hne, hfil]
    simp
  · intro c cs h
    unfold outgoing_calls_details
    rw [List.foldl_cons, outgoing_call_step_empty_phone [] c h]
  · intro calls cd hcd
    exact outgoing_calls_details_phone_invariant calls [] (by simp) cd hcd

/-- Witness for C10: the raw phone "--" (no digits) at a concrete order and
call. -/
theorem spec_c10_witness :
    normalize_phone_number "--".data = some [] ∧
    order_step 0 [] S3State.init ⟨1, "A".data, some (some 0), "--".data, []⟩ =
      S3State.init ∧
    outgoing_calls_details [⟨"out".data, some "--".data, some (some 0)⟩] =
      outgoing_calls_details [] :=
  ⟨spec_c10.1 "--".data (by decide) (by decide),
   spec_c10.2.1 0 [] S3State.init ⟨1, "A".data, some (some 0), "--".data, []⟩ (by decide),
   spec_c10.2.2.1 ⟨"out".data, some "--".data, some (some 0)⟩ [] (by decide)⟩

theorem order_step_delta (d : ℤ) (calls : List CallDetail) (st : S3State) (o : Order) :
    (order_step d calls st o = st) ∨
    ((order_step d calls st o).total_relevant_orders = st.total_relevant_orders + 1 ∧
     (((order_step d calls st o).orders_in_work_time_count =
         st.orders_in_work_time_count + 1 ∧
       (order_step d calls st o).orders_outside_work_time_count =
         st.orders_outside_work_time_count) ∨
      ((order_step d calls st o).orders_in_work_time_count =
         st.orders_in_work_time_count ∧
       (order_step d calls st o).orders_outside_work_time_count =
         st.orders_outside_work_time_count + 1)) ∧
     ((order_step d calls st o).overdue_count = st.overdue_count ∨
      (order_step d calls st o).overdue_count = st.overdue_count + 1)) := by
  obtain ⟨oid, onum, oca, oph, ocp⟩ := o
  unfold order_step
  cases onum with
  | nil => exact Or.inl rfl
  | cons a as =>
    cases oca with
    | none => exact Or.inl rfl
    | some cp =>
      cases hn : normalize_opt (extract_phone ⟨oid, a :: as, some cp, oph, ocp⟩) with
      | none => exact Or.inl rfl
      | some l =>
        cases l with
        | nil => exact Or.inl rfl
        | cons p ps =>
          dsimp only
          cases cp with
          | none => exact Or.inl rfl
          | some t =>
            dsimp only
            by_cases hrel : (start_report d ≤ t ∧ t ≤ end_report d) ∨
                (previous_day_non_work_time d ≤ t ∧ t < start_work_day d)
            · rw [if_pos hrel]
              cases hcl : classify_deadline d t with
              | none => exact absurd hcl (classify_deadline_ne_none d t hrel)
              | some pr =>
                obtain ⟨inw, dl⟩ := pr
                dsimp only
                right
                cases inw with
                | true =>
                  by_cases hov :
                      is_overdue (first_contact calls (p :: ps) t) dl = true
                  · rw [if_pos hov]
                    exact ⟨rfl, Or.inl ⟨rfl, rfl⟩, Or.inr rfl⟩
                  · rw [if_neg hov]
                    exact ⟨rfl, Or.inl ⟨rfl, rfl⟩, Or.inl rfl⟩
                | false =>
                  by_cases hov :
                      is_overdue (first_contact calls (p :: ps) t) dl = true
                  · rw [if_pos hov]
                    exact ⟨rfl, Or.inr ⟨rfl, rfl⟩, Or.inr rfl⟩
                  · rw [if_neg hov]
                    exact ⟨rfl, Or.inr ⟨rfl, rfl⟩, Or.inl rfl⟩
            · rw [if_neg hrel]
              exact Or.inl rfl

theorem fold_counters_invariant (d : ℤ) (calls : List CallDetail) :
    ∀ (orders : List Order) (st : S3State),
      st.overdue_count ≤ st.total_relevant_orders →
      st.orders_in_work_time_count + st.orders_outside_work_time_count =
        st.total_relevant_orders →
      ((orders.foldl (order_step d calls) st).overdue_count ≤
          (orders.foldl (order_step d calls) st).total_relevant_orders ∧
        (orders.foldl (order_step d calls) st).orders_in_work_time_count +
            (orders.foldl (order_step d calls) st).orders_outside_work_time_count =
          (orders.foldl (order_step d calls) st).total_relevant_orders) := by
  intro orders
  induction orders with
  | nil =>
    intro st h1 h2
    exact ⟨h1, h2⟩
  | cons o os ih =>
    intro st h1 h2
    rw [List.foldl_cons]
    rcases order_step_delta d calls st o with heq | ⟨e1, e2, e3⟩
    · rw [heq]
      exact ih st h1 h2
    · apply ih
      · rcases e3 with h | h <;> omega
      · rcases e2 with ⟨ha, hb⟩ | ⟨ha, hb⟩ <;> omega

/-- C3: the final counters of the section-3 evaluation satisfy
`overdue ≤ total` and `inHours + outOfHours = total`; moreover each single
order either leaves the state untouched or adds exactly 1 to the total,
exactly 1 to exactly one of the in-hours/out-of-hours counters, and 0 or 1
to the overdue counter — no double counting. -/
theorem spec_c3 (d : ℤ) (calls : List CallDetail) (orders : List Order) :
    ((orders.foldl (order_step d calls) S3State.init).overdue_count ≤
        (orders.foldl (order_step d calls) S3State.init).total_relevant_orders ∧
      (orders.foldl (order_step d calls) S3State.init).orders_in_work_time_count +
          (orders.foldl (order_step d calls) S3State.init).orders_outside_work_time_count =
        (orders.foldl (order_step d calls) S3State.init).total_relevant_orders) ∧
    (∀ (st : S3State) (o : Order),
      (order_step d calls st o = st) ∨
      ((order_step d calls st o).total_relevant_orders = st.total_relevant_orders + 1 ∧
       (((order_step d calls st o).orders_in_work_time_count =
           st.orders_in_work_time_count + 1 ∧
         (order_step d calls st o).orders_outside_work_time_count =
           st.orders_outside_work_time_count) ∨
        ((order_step d calls st o).orders_in_work_time_count =
           st.orders_in_work_time_count ∧
         (order_step d calls st o).orders_outside_work_time_count =
           st.orders_outside_work_time_count + 1)) ∧
       ((order_step d calls st o).overdue_count = st.overdue_count ∨
        (order_step d calls st o).overdue_count = st.overdue_count + 1))) :=
  ⟨fold_counters_invariant d calls orders S3State.init (Nat.le_refl 0) rfl,
   fun st o => order_step_delta d calls st o⟩

theorem getLast?_le_of_pairwise_lt {l : List ℕ} {q : ℕ}
    (hp : List.Pairwise (fun x1 x2 => x1 < x2) l) (h : l.getLast? = some q) :
    ∀ x ∈ l, x ≤ q := by
  obtain ⟨ys, rfl⟩ := List.getLast?_eq_some_iff.mp h
  intro x hx
  rcases List.mem_append.mp hx with hx | hx
  · have hlt := (List.pairwise_append.mp hp).2.2 x hx q (List.mem_singleton_self q)
    omega
  · rw [List.mem_singleton] at hx
    omega

theorem rfind_nl_some (cs : List Char) (L q : ℕ) (h : rfind_nl cs L = some q) :
    q < L ∧ cs.getD q ' ' = '\n' ∧ ∀ j, q < j → j < L → cs.getD j ' ' ≠ '\n' := by
  unfold rfind_nl at h
  have hmem : q ∈ (List.range L).filter (fun i => cs.getD i ' ' == '\n') := by
    obtain ⟨ys, hys⟩ := List.getLast?_eq_some_iff.mp h
    rw [hys]
    exact List.mem_append_right _ (List.mem_singleton_self q)
  have hq := List.mem_filter.mp hmem
  refine ⟨List.mem_range.mp hq.1, by simpa using hq.2, ?_⟩
  intro j hqj hjL hnl
  have hjmem : j ∈ (List.range L).filter (fun i => cs.getD i ' ' == '\n') :=
    List.mem_filter.mpr ⟨List.mem_range.mpr hjL, by simpa using hnl⟩
  have hle := getLast?_le_of_pairwise_lt
    (List.Pairwise.filter _ (List.sorted_lt_range L)) h j hjmem
  omega

theorem rfind_nl_none (cs : List Char) (L : ℕ) (h : rfind_nl cs L = none) :
    ∀ j, j < L → cs.getD j ' ' ≠ '\n' := by
  unfold rfind_nl at h
  rw [List.getLast?_eq_none_iff] at h
  intro j hj hnl
  have hjmem : j ∈ (List.range L).filter (fun i => cs.getD i ' ' == '\n') :=
    List.mem_filter.mpr ⟨List.mem_range.mpr hj, by simpa using hnl⟩
  rw [h] at hjmem
  simp at hjmem

set_option maxRecDepth 4000 in
theorem split_message_chunk_le :
    ∀ (n : ℕ) (cs : List Char), cs.length ≤ n →
      ∀ chunk ∈ split_message cs, chunk.length ≤ 4096 := by
  intro n
  induction n with
  | zero =>
    intro cs hlen chunk hc
    have hnil : cs = [] := List.length_eq_zero.mp (Nat.le_zero.mp hlen)
    subst hnil
    rw [split_message.eq_def] at hc
    rw [if_pos (by simp)] at hc
    rw [List.mem_singleton] at hc
    subst hc
    simp
  | succ n ih =>
    intro cs hlen chunk hc
    rw [split_message.eq_def] at hc
    by_cases h : cs.length ≤ 4096
    · rw [if_pos h] at hc
      rw [List.mem_singleton] at hc
      subst hc
      exact h
    · rw [if_neg h] at hc
      rcases List.mem_cons.mp hc with heq | h2
      · have hle := split_pos_le cs
        rw [heq, List.length_take]
        omega
      · refine ih _ ?_ chunk h2
        have h1 := split_pos_pos cs
        have hdw : ((cs.drop (split_pos cs)).dropWhile (fun c => c == '\n')).length ≤
            (cs.drop (split_pos cs)).length := (List.dropWhile_sublist _).length_le
        rw [List.length_drop] at hdw
        omega

/-- C9: every chunk produced by `split_message` has length at most 4096;
and an over-limit text has its first chunk cut at `split_pos`, which is
either the latest newline position before the limit when that position lies
in the last 10% of the limit (at or past character 3687), or exactly the
4096 hard cut when no newline exists in that final window. -/
theorem spec_c9 (cs : List Char) :
    (∀ chunk ∈ split_message cs, chunk.length ≤ 4096) ∧
    (cs.length ≤ 4096 ∨
      (split_message cs =
          cs.take (split_pos cs) ::
            split_message ((cs.drop (split_pos cs)).dropWhile (fun c => c == '\n')) ∧
        ((cs.getD (split_pos cs) ' ' = '\n' ∧ 3687 ≤ split_pos cs ∧ split_pos cs < 4096 ∧
            ∀ j, split_pos cs < j → j < 4096 → cs.getD j ' ' ≠ '\n') ∨
          (split_pos cs = 4096 ∧ ∀ j, 3687 ≤ j → j < 4096 → cs.getD j ' ' ≠ '\n')))) := by
  constructor
  · exact split_message_chunk_le cs.length cs (Nat.le_refl _)
  · by_cases h : cs.length ≤ 4096
    · exact Or.inl h
    · right
      constructor
      · conv_lhs => rw [split_message.eq_def]
        rw [if_neg h]
      · cases hr : rfind_nl cs 4096 with
        | none =>
          have hsp : split_pos cs = 4096 := by
            unfold split_pos
            rw [hr]
          rw [hsp]
          exact Or.inr ⟨rfl, fun j hj1 hj2 => rfind_nl_none cs 4096 hr j hj2⟩
        | some q =>
          obtain ⟨hqL, hq, hlatest⟩ := rfind_nl_some cs 4096 q hr
          by_cases h10 : q * 10 < 4096 * 9
          · have hsp : split_pos cs = 4096 := by
              unfold split_pos
              rw [hr]
              dsimp only
              rw [if_pos h10]
            rw [hsp]
            refine Or.inr ⟨rfl, ?_⟩
            intro j hj1 hj2 hnl
            exact hlatest j (by omega) hj2 hnl
          · have hsp : split_pos cs = q := by
              unfold split_pos
              rw [hr]
              dsimp only
              rw [if_neg h10]
            rw [hsp]
            exact Or.inl ⟨hq, by omega, hqL, hlatest⟩
